import Mathlib

/-!
Verification of the aznet core: frame codec, Noise seal/unseal, adaptive
poller, connection read/write/flush engine, and listener janitor, shallowly
embedded from the Go source (`aznet.go`, `crypto.go`, `frame.go`, poller file).
Bytes are modelled as natural numbers (values taken mod 256 where the Go code
truncates); machine `uint32` arithmetic is modelled with explicit `% 2^32`.
-/

namespace Aznet

/-- Message type for application data (Go `MsgTypeData = 0x00`). -/
def MsgTypeData : ℕ := 0x00

/-- Message type for keep-alive heartbeats (Go `MsgTypePing = 0x01`). -/
def MsgTypePing : ℕ := 0x01

/-- Message type for graceful close (Go `MsgTypeFin = 0x02`). -/
def MsgTypeFin : ℕ := 0x02

/-- Message type for rotation notifications (Go `MsgTypeRotate = 0x03`). -/
def MsgTypeRotate : ℕ := 0x03

/-- Go `binary.BigEndian.PutUint32`: the four big-endian bytes of `n % 2^32`. -/
def u32be (n : ℕ) : List ℕ :=
  [n / 2 ^ 24 % 256, n / 2 ^ 16 % 256, n / 2 ^ 8 % 256, n % 256]

/-- Go `binary.BigEndian.Uint32` applied to the first four bytes of `b`. -/
def beVal : List ℕ → ℕ
  | b0 :: b1 :: b2 :: b3 :: _ => b0 * 2 ^ 24 + b1 * 2 ^ 16 + b2 * 2 ^ 8 + b3
  | _ => 0

@[simp] theorem u32be_length (n : ℕ) : (u32be n).length = 4 := rfl

theorem beVal_u32be (n : ℕ) (h : n < 2 ^ 32) : beVal (u32be n) = n := by
  simp only [u32be, beVal, List.getD]
  omega

/-- Go `FrameHeaderSize = 4 + 1`. -/
def FrameHeaderSize : ℕ := 4 + 1

/-- Go `NoiseOverhead = 4 + 16`: 4-byte length prefix plus 16-byte AES-GCM tag. -/
def NoiseOverhead : ℕ := 4 + 16

/-- Go `Frame`: a single message unit (`Typ` models the Go field `Type`,
which is a reserved word here). -/
structure Frame where
  Payload : List ℕ := []
  Typ : ℕ

/-- Go `BuildFrame`: append `[length:4 BE][type:1][payload]` to the write buffer. -/
def BuildFrame (writeBuf : List ℕ) (f : Frame) : List ℕ :=
  writeBuf ++ u32be f.Payload.length ++ [f.Typ] ++ f.Payload

theorem BuildFrame_eq (buf payload : List ℕ) (t : ℕ) :
    BuildFrame buf ⟨payload, t⟩ = buf ++ (u32be payload.length ++ ([t] ++ payload)) := by
  simp [BuildFrame]

theorem beVal_u32be_append (n : ℕ) (rest : List ℕ) :
    beVal (u32be n ++ rest) = beVal (u32be n) := rfl

/-- C4: Frame codec contract.  `BuildFrame buf t payload` appends exactly
`5 + |payload|` bytes: a 4-byte big-endian length equal to `|payload|`, the
type byte, then the payload; the existing buffer contents are unchanged. -/
theorem buildFrame_contract (buf payload : List ℕ) (t : ℕ)
    (h : payload.length < 2 ^ 32) :
    (BuildFrame buf ⟨payload, t⟩).length = buf.length + (5 + payload.length) ∧
    (BuildFrame buf ⟨payload, t⟩).take buf.length = buf ∧
    beVal ((BuildFrame buf ⟨payload, t⟩).drop buf.length) = payload.length ∧
    ((BuildFrame buf ⟨payload, t⟩).drop buf.length).getD 4 0 = t ∧
    (BuildFrame buf ⟨payload, t⟩).drop (buf.length + 5) = payload := by
  rw [BuildFrame_eq]
  have hdrop : (buf ++ (u32be payload.length ++ ([t] ++ payload))).drop buf.length =
      u32be payload.length ++ ([t] ++ payload) := by
    simp
  refine ⟨by simp; omega, by simp, ?_, ?_, ?_⟩
  · rw [hdrop, beVal_u32be_append, beVal_u32be _ h]
  · rw [hdrop]
    simp [u32be]
  · rw [← List.drop_drop, hdrop]
    simp [u32be]

/-- Closed-form witness for `buildFrame_contract`. -/
theorem buildFrame_contract_witness :
    (BuildFrame [9] ⟨[1, 2, 3], 0⟩).length = 1 + (5 + 3) ∧
    (BuildFrame [9] ⟨[1, 2, 3], 0⟩).take 1 = [9] ∧
    beVal ((BuildFrame [9] ⟨[1, 2, 3], 0⟩).drop 1) = 3 ∧
    ((BuildFrame [9] ⟨[1, 2, 3], 0⟩).drop 1).getD 4 0 = 0 ∧
    (BuildFrame [9] ⟨[1, 2, 3], 0⟩).drop (1 + 5) = [1, 2, 3] := by
  have h := buildFrame_contract [9] [1, 2, 3] 0 (by decide)
  simpa using h

/-! ### Noise session (crypto.go)

The AEAD primitive itself lives in the external flynn/noise dependency, so it
is modelled; `SealData`/`UnsealData` are translated from `crypto.go`. -/

/-- Modelled from the spec: the 16-byte AES-256-GCM authentication tag of the
flynn/noise cipher state (library code not in src).  The tag binds the
implicit nonce and the plaintext; its only properties used by the core are
its 16-byte size and AEAD correctness. -/
def aeadTag (n : ℕ) (pt : List ℕ) : List ℕ :=
  u32be n ++ u32be pt.length ++ List.replicate 8 0

/-- Modelled from the spec: AEAD encryption at nonce `n`; ciphertext is
`|pt| + 16` bytes (plaintext plus tag). -/
def aeadEncrypt (n : ℕ) (pt : List ℕ) : List ℕ :=
  pt ++ aeadTag n pt

/-- Modelled from the spec: AEAD decryption at nonce `n`; succeeds exactly on
well-formed ciphertexts carrying the tag for nonce `n`. -/
def aeadDecrypt (n : ℕ) (ct : List ℕ) : Option (List ℕ) :=
  if 16 ≤ ct.length ∧ ct.drop (ct.length - 16) = aeadTag n (ct.take (ct.length - 16))
  then some (ct.take (ct.length - 16)) else none

@[simp] theorem aeadTag_length (n : ℕ) (pt : List ℕ) : (aeadTag n pt).length = 16 := by
  simp [aeadTag]

@[simp] theorem aeadEncrypt_length (n : ℕ) (pt : List ℕ) :
    (aeadEncrypt n pt).length = pt.length + 16 := by
  simp [aeadEncrypt]

theorem aeadDecrypt_aeadEncrypt (n : ℕ) (pt : List ℕ) :
    aeadDecrypt n (aeadEncrypt n pt) = some pt := by
  have hlen : (aeadEncrypt n pt).length - 16 = pt.length := by simp
  have htake : (aeadEncrypt n pt).take pt.length = pt := by
    simp [aeadEncrypt, List.take_left']
  have hdrop : (aeadEncrypt n pt).drop pt.length = aeadTag n pt := by
    simp [aeadEncrypt, List.drop_left']
  rw [aeadDecrypt, hlen]
  rw [htake, hdrop]
  simp

/-- Go `Noise`: handshake/cipher state.  After the handshake the two
directional cipher states `cs1`/`cs2` are modelled by their implicit nonces
(the keys of an established pair coincide and are left implicit). -/
structure Noise where
  cs1 : ℕ
  cs2 : ℕ
  isComplete : Bool
  isInitiator : Bool
deriving DecidableEq, Repr

/-- Go `Noise.EncryptData`: initiator encrypts with `cs1`, responder with
`cs2`; the used cipher state advances its nonce. -/
def Noise.EncryptData (nh : Noise) (pt : List ℕ) : List ℕ × Noise :=
  if nh.isInitiator then (aeadEncrypt nh.cs1 pt, { nh with cs1 := nh.cs1 + 1 })
  else (aeadEncrypt nh.cs2 pt, { nh with cs2 := nh.cs2 + 1 })

/-- Go `Noise.DecryptData`: initiator decrypts with `cs2`, responder with
`cs1`; the nonce advances only on success. -/
def Noise.DecryptData (nh : Noise) (ct : List ℕ) : Option (List ℕ) × Noise :=
  if nh.isInitiator then
    match aeadDecrypt nh.cs2 ct with
    | some pt => (some pt, { nh with cs2 := nh.cs2 + 1 })
    | none => (none, nh)
  else
    match aeadDecrypt nh.cs1 ct with
    | some pt => (some pt, { nh with cs1 := nh.cs1 + 1 })
    | none => (none, nh)

/-- Go `Noise.SealData`: encrypt and prepend the 4-byte big-endian length of
the ciphertext (the Go `dst` capacity plumbing does not affect the bytes
produced). -/
def Noise.SealData (nh : Noise) (pt : List ℕ) : List ℕ × Noise :=
  let enc := nh.EncryptData pt
  (u32be enc.1.length ++ enc.1, enc.2)

/-- Result of Go `Noise.UnsealData`: `(plaintext, remaining, err)` where the
error is nil, `io.ErrShortBuffer`, or a decryption failure. -/
inductive UnsealResult where
  | ok (plaintext remaining : List ℕ)
  | shortBuffer (remaining : List ℕ)
  | decryptFailed
deriving DecidableEq, Repr

/-- Go `Noise.UnsealData`: peek the 4-byte length, signal short buffer if
fewer than `4 + length` bytes are present, otherwise decrypt
`data[4:4+length]` and return the rest. -/
def Noise.UnsealData (nh : Noise) (data : List ℕ) : UnsealResult × Noise :=
  if data.length < 4 then (.shortBuffer data, nh)
  else
    let length := beVal (data.take 4)
    if data.length < 4 + length then (.shortBuffer data, nh)
    else
      match (nh.DecryptData ((data.drop 4).take length)) with
      | (some pt, nh2) => (.ok pt (data.drop (4 + length)), nh2)
      | (none, nh2) => (.decryptFailed, nh2)

/-- The nonce of the cipher state a session uses to send. -/
def Noise.sendNonce (nh : Noise) : ℕ := if nh.isInitiator then nh.cs1 else nh.cs2

/-- The nonce of the cipher state a session uses to receive. -/
def Noise.recvNonce (nh : Noise) : ℕ := if nh.isInitiator then nh.cs2 else nh.cs1

/-- The session state after one successful receive. -/
def Noise.recvAdvance (nh : Noise) : Noise :=
  if nh.isInitiator then { nh with cs2 := nh.cs2 + 1 } else { nh with cs1 := nh.cs1 + 1 }

theorem SealData_eq (a : Noise) (pt : List ℕ) :
    a.SealData pt = (u32be (pt.length + 16) ++ aeadEncrypt a.sendNonce pt,
      if a.isInitiator then { a with cs1 := a.cs1 + 1 } else { a with cs2 := a.cs2 + 1 }) := by
  cases h : a.isInitiator <;>
    simp [Noise.SealData, Noise.EncryptData, Noise.sendNonce, h]

theorem UnsealData_chunk (b : Noise) (n : ℕ) (pt rest : List ℕ)
    (hlen : pt.length + 16 < 2 ^ 32) (hnonce : b.recvNonce = n) :
    b.UnsealData (u32be (pt.length + 16) ++ (aeadEncrypt n pt ++ rest)) =
      (.ok pt rest, b.recvAdvance) := by
  set L := pt.length + 16 with hL
  have hdata : (u32be L ++ (aeadEncrypt n pt ++ rest)).length = 4 + L + rest.length := by
    simp [hL]; omega
  have htake4 : (u32be L ++ (aeadEncrypt n pt ++ rest)).take 4 = u32be L :=
    List.take_left' (by simp)
  have hdrop4 : (u32be L ++ (aeadEncrypt n pt ++ rest)).drop 4 = aeadEncrypt n pt ++ rest :=
    List.drop_left' (by simp)
  have htakeL : (aeadEncrypt n pt ++ rest).take L = aeadEncrypt n pt :=
    List.take_left' (by simp [hL])
  have hdropL : (u32be L ++ (aeadEncrypt n pt ++ rest)).drop (4 + L) = rest := by
    have : u32be L ++ (aeadEncrypt n pt ++ rest) = (u32be L ++ aeadEncrypt n pt) ++ rest := by
      simp
    rw [this]
    exact List.drop_left' (by simp [hL])
  rw [Noise.UnsealData]
  rw [if_neg (by omega)]
  simp only [htake4, beVal_u32be L hlen]
  rw [if_neg (by omega)]
  rw [hdrop4, htakeL]
  have hdec : b.DecryptData (aeadEncrypt n pt) = (some pt, b.recvAdvance) := by
    cases h : b.isInitiator <;>
      simp_all [Noise.DecryptData, Noise.recvNonce, Noise.recvAdvance,
        aeadDecrypt_aeadEncrypt]
  rw [hdec, hdropL]

/-- C2: Seal/unseal round trip.  For an established session pair (opposite
roles, matching nonce on the sending direction), `UnsealData` applied by the
peer to exactly the bytes produced by `SealData` returns the original
plaintext with no error and no remaining bytes, and the 4-byte big-endian
length prefix written by `SealData` equals `|plaintext| + 16`. -/
theorem sealData_unsealData_roundtrip (a b : Noise) (pt : List ℕ)
    (_hroles : b.isInitiator = !a.isInitiator)
    (hnonce : b.recvNonce = a.sendNonce)
    (hlen : pt.length + 16 < 2 ^ 32) :
    (b.UnsealData (a.SealData pt).1).1 = UnsealResult.ok pt [] ∧
    (a.SealData pt).1.take 4 = u32be (pt.length + 16) ∧
    beVal ((a.SealData pt).1.take 4) = pt.length + 16 := by
  have hseal : (a.SealData pt).1 =
      u32be (pt.length + 16) ++ (aeadEncrypt a.sendNonce pt ++ []) := by
    rw [SealData_eq]; simp
  refine ⟨?_, ?_, ?_⟩
  · rw [hseal, UnsealData_chunk b a.sendNonce pt [] hlen hnonce]
  · rw [hseal]
    exact List.take_left' (by simp)
  · rw [hseal, List.take_left' (by simp), beVal_u32be _ hlen]

/-- Closed witness for `sealData_unsealData_roundtrip`: a fresh
initiator/responder pair at nonce 0 round-trips the plaintext `[1, 2, 3]`. -/
theorem sealData_unsealData_roundtrip_witness :
    ((Noise.mk 0 0 true false).UnsealData ((Noise.mk 0 0 true true).SealData [1, 2, 3]).1).1 =
      UnsealResult.ok [1, 2, 3] [] ∧
    ((Noise.mk 0 0 true true).SealData [1, 2, 3]).1.take 4 = u32be (3 + 16) ∧
    beVal (((Noise.mk 0 0 true true).SealData [1, 2, 3]).1.take 4) = 3 + 16 :=
  sealData_unsealData_roundtrip (Noise.mk 0 0 true true) (Noise.mk 0 0 true false)
    [1, 2, 3] (by decide) (by decide) (by decide)

/-- C5: Unseal short-buffer handling.  When fewer than 4 bytes, or fewer than
`4 + length` bytes (with `length` the 4-byte big-endian prefix), are
available, `UnsealData` signals the recoverable short-buffer condition,
returns the input unchanged as the remaining bytes, and leaves the cipher
state untouched. -/
theorem unsealData_short_buffer (nh : Noise) (data : List ℕ)
    (h : data.length < 4 ∨ data.length < 4 + beVal (data.take 4)) :
    nh.UnsealData data = (UnsealResult.shortBuffer data, nh) := by
  rw [Noise.UnsealData]
  rcases h with h | h
  · rw [if_pos h]
  · by_cases h4 : data.length < 4
    · rw [if_pos h4]
    · rw [if_neg h4, if_pos h]

/-- Closed witness for `unsealData_short_buffer`: three bytes are too few. -/
theorem unsealData_short_buffer_witness :
    (Noise.mk 0 0 true true).UnsealData [1, 2, 3] =
      (UnsealResult.shortBuffer [1, 2, 3], Noise.mk 0 0 true true) :=
  unsealData_short_buffer (Noise.mk 0 0 true true) [1, 2, 3] (by decide)

/-! ### Adaptive poller

Durations are modelled as integers (Go `time.Duration` is an `int64` count of
nanoseconds). -/

/-- Go `DefaultFastPoll = 10 * time.Millisecond`, in nanoseconds. -/
def DefaultFastPoll : ℤ := 10 * 1000000

/-- Go `AdaptivePoll`: exponential back-off sleeper. -/
structure AdaptivePoll where
  Cur : ℤ
  Fast : ℤ
  Steady : ℤ
  skip : Bool

/-- Go `NewAdaptivePoll`: clamp the arguments and start at the fast interval. -/
def NewAdaptivePoll (fast steady : ℤ) : AdaptivePoll :=
  let fast := if fast ≤ 0 then DefaultFastPoll else fast
  let steady := if steady < fast then fast else steady
  { Cur := fast, Fast := fast, Steady := steady, skip := false }

/-- Go `AdaptivePoll.Sleep`: returns the blocking duration (`none` when the
skip flag elides the sleep) together with the successor state. -/
def AdaptivePoll.Sleep (p : AdaptivePoll) : Option ℤ × AdaptivePoll :=
  if p.skip then (none, { p with skip := false })
  else
    let cur :=
      if p.Cur < p.Steady then
        if p.Cur * 2 > p.Steady then p.Steady else p.Cur * 2
      else p.Cur
    (some p.Cur, { p with Cur := cur })

/-- Go `AdaptivePoll.Reset`: back to the fast interval, eliding one sleep. -/
def AdaptivePoll.Reset (p : AdaptivePoll) : AdaptivePoll :=
  { p with Cur := p.Fast, skip := true }

/-- The poller invariant `fast ≤ current ≤ steady` (with a positive fast
interval, as established by the constructor). -/
def AdaptivePoll.Inv (p : AdaptivePoll) : Prop :=
  0 < p.Fast ∧ p.Fast ≤ p.Cur ∧ p.Cur ≤ p.Steady

/-- C8: Adaptive poller.  `NewAdaptivePoll` establishes the invariant
`fast ≤ current ≤ steady`; `Sleep` and `Reset` preserve it; a blocking
`Sleep` waits exactly `current` and then doubles `current` clamped to
`steady` (so the waited interval never decreases and never exceeds
`steady`); after a `Reset` the first `Sleep` returns immediately without
blocking and the second blocks for exactly `fast`. -/
theorem adaptivePoll_spec (p : AdaptivePoll) (h : p.Inv) :
    (∀ fast steady : ℤ, (NewAdaptivePoll fast steady).Inv) ∧
    (p.Sleep.2.Inv ∧ p.Reset.Inv) ∧
    (p.skip = false →
      p.Sleep.1 = some p.Cur ∧ p.Sleep.2.Cur = min (p.Cur * 2) p.Steady ∧
      p.Cur ≤ p.Sleep.2.Cur ∧ p.Fast ≤ p.Cur ∧ p.Cur ≤ p.Steady) ∧
    (p.Reset.Sleep.1 = none ∧ p.Reset.Sleep.2.Sleep.1 = some p.Fast) := by
  obtain ⟨hf, hfc, hcs⟩ := h
  refine ⟨?_, ⟨?_, ?_⟩, ?_, ?_⟩
  · intro fast steady
    unfold NewAdaptivePoll AdaptivePoll.Inv DefaultFastPoll
    dsimp only
    split <;> split <;> simp_all
  · unfold AdaptivePoll.Sleep AdaptivePoll.Inv
    split
    · exact ⟨hf, hfc, hcs⟩
    · dsimp only
      split <;> [skip; exact ⟨hf, hfc, hcs⟩]
      split <;> refine ⟨hf, ?_, ?_⟩ <;> omega
  · exact ⟨hf, le_refl _, le_trans hfc hcs⟩
  · intro hskip
    have hsleep : p.Sleep.1 = some p.Cur ∧ p.Sleep.2.Cur =
        (if p.Cur < p.Steady then
          (if p.Cur * 2 > p.Steady then p.Steady else p.Cur * 2) else p.Cur) := by
      unfold AdaptivePoll.Sleep
      rw [hskip]
      simp
    obtain ⟨h1, h2⟩ := hsleep
    refine ⟨h1, ?_, ?_, hfc, hcs⟩
    · rw [h2]; split_ifs <;> omega
    · rw [h2]; split_ifs <;> omega
  · constructor
    · simp [AdaptivePoll.Reset, AdaptivePoll.Sleep]
    · simp only [AdaptivePoll.Reset, AdaptivePoll.Sleep]
      simp

/-- Closed witness for `adaptivePoll_spec` at `fast = 2`, `steady = 5`. -/
theorem adaptivePoll_spec_witness :
    (AdaptivePoll.mk 2 2 5 false).Sleep.1 = some 2 ∧
    (AdaptivePoll.mk 2 2 5 false).Reset.Sleep.1 = none ∧
    (AdaptivePoll.mk 2 2 5 false).Reset.Sleep.2.Sleep.1 = some 2 := by
  have h := adaptivePoll_spec (AdaptivePoll.mk 2 2 5 false)
    ⟨by decide, by decide, by decide⟩
  exact ⟨(h.2.2.1 rfl).1, h.2.2.2.1, h.2.2.2.2⟩

/-! ### Connection engine (aznet.go)

`Conn` is modelled by `ConnState`.  The read side is modelled after the Noise
layer (its `readBuf` holds decrypted bytes, as `bufs.Read` does); the raw
transport is an oracle: a list of outcomes for successive `WriteRaw` calls on
the write side, and the delivered plaintext on the read side.  Times are
naturals (nanoseconds). -/

/-- Go `newConn`: `mtu = t.MaxRawSize() - NoiseOverhead - FrameHeaderSize`
(truncated at zero; real transports have `MaxRawSize ≥ 26`). -/
def connMTU (maxRawSize : ℕ) : ℕ := maxRawSize - NoiseOverhead - FrameHeaderSize

/-- The mutable connection state of Go `Conn` relevant to the stream engine. -/
structure ConnState where
  closed : Bool
  closedRead : Bool
  closedWrite : Bool
  readBuf : List ℕ
  readRemain : ℕ
  writeBuf : List ℕ
  peerLastSeen : ℕ
  lastActive : ℕ
  readDeadline : Option ℕ := none
  writeDeadline : Option ℕ := none
  noise : Noise
  maxRawSize : ℕ
deriving DecidableEq, Repr

/-- Go deadline test `deadline != nil && !deadline.IsZero() && now.After(*deadline)`
(`none` is a nil pointer, `some 0` the zero time). -/
def deadlineExpired (now : ℕ) : Option ℕ → Bool
  | none => false
  | some t => decide (t ≠ 0 ∧ t < now)

/-- Outcome of one Go `Conn.Read` call. -/
inductive ReadResult where
  | bytes (out : List ℕ)
  | eof
  | errClosed
  | errDeadline
  | noData
deriving DecidableEq, Repr

/-- Go `Conn.Read`, one call, driven by the already-decrypted bytes in
`readBuf`: drain a partial frame, else dispatch the next complete frame
(PING/ROTATE/unknown are consumed and the loop continues); `.noData` marks
the point where the code would call `transport.ReadRaw`. -/
def connRead (now size : ℕ) (s : ConnState) : ReadResult × ConnState :=
  if s.closed then (.errClosed, s)
  else if s.closedRead then (.eof, s)
  else if deadlineExpired now s.readDeadline then (.errDeadline, s)
  else if 0 < s.readRemain then
    let n := min s.readRemain size
    (.bytes (s.readBuf.take n),
     { s with readBuf := s.readBuf.drop n, readRemain := s.readRemain - n })
  else if h5 : 5 ≤ s.readBuf.length then
    let fLen := beVal (s.readBuf.take 4)
    let fType := s.readBuf.getD 4 0
    if 5 + fLen ≤ s.readBuf.length then
      if fType = MsgTypeData then
        let n := min fLen size
        (.bytes ((s.readBuf.drop 5).take n),
         { s with readBuf := s.readBuf.drop (5 + n), readRemain := fLen - n,
                  peerLastSeen := now })
      else if fType = MsgTypeFin then
        (.eof, { s with readBuf := s.readBuf.drop (5 + fLen), closedRead := true,
                        peerLastSeen := now })
      else
        connRead now size { s with readBuf := s.readBuf.drop (5 + fLen),
                                   peerLastSeen := now }
    else (.noData, s)
  else (.noData, s)
termination_by s.readBuf.length
decreasing_by simp; omega

/-- Go `Conn.Write`, the frame-building loop: slice `p` into DATA frames of
at most `mtu` bytes and append them to the write buffer.  (For `mtu = 0` the
Go loop would not terminate; real connections have `mtu ≥ 1`.) -/
def writeLoop (mtu : ℕ) (wbuf p : List ℕ) : List ℕ :=
  if h0 : p.length = 0 then wbuf
  else if hm : mtu = 0 then wbuf
  else
    let chunkSize := min p.length mtu
    writeLoop mtu (BuildFrame wbuf ⟨p.take chunkSize, MsgTypeData⟩) (p.drop chunkSize)
termination_by p.length
decreasing_by
  simp
  omega

/-- The payload slices produced by the `Conn.Write` loop. -/
def chunksOf (mtu : ℕ) (p : List ℕ) : List (List ℕ) :=
  if h0 : p.length = 0 then []
  else if hm : mtu = 0 then []
  else p.take mtu :: chunksOf mtu (p.drop mtu)
termination_by p.length
decreasing_by
  simp
  omega

/-- The wire encoding of one DATA frame. -/
def dataFrameBytes (pl : List ℕ) : List ℕ := BuildFrame [] ⟨pl, MsgTypeData⟩

/-- The wire encoding of a FIN frame (no payload). -/
def finFrameBytes : List ℕ := BuildFrame [] ⟨[], MsgTypeFin⟩

/-- The wire encoding of a sequence of DATA frames. -/
def framesBytes (pls : List (List ℕ)) : List ℕ := (pls.map dataFrameBytes).flatten

/-- Outcome of Go `Conn.flush`. -/
inductive FlushOutcome where
  | ok
  | writeRawFailed
deriving DecidableEq, Repr

/-- Go `Conn.flush` (non-rotating transport): repeatedly drain up to
`MaxRawSize - NoiseOverhead` plaintext bytes from the write buffer, seal,
and hand the sealed chunk to `WriteRaw`; the `oracle` lists the outcomes of
successive `WriteRaw` calls (an exhausted oracle fails).  Returns the
outcome, the chunks handed to `WriteRaw`, and the final state.  (For
`MaxRawSize ≤ NoiseOverhead` the Go loop would not terminate; real drivers
are far larger.) -/
def connFlush (oracle : List Bool) (now : ℕ) (s : ConnState) : FlushOutcome × List (List ℕ) × ConnState :=
  if h0 : s.writeBuf.length = 0 then (.ok, [], s)
  else if hm : s.maxRawSize - NoiseOverhead = 0 then (.ok, [], s)
  else
    let takeLen := min s.writeBuf.length (s.maxRawSize - NoiseOverhead)
    let sealed := s.noise.SealData (s.writeBuf.take takeLen)
    match oracle with
    | true :: rest =>
      let r := connFlush rest now
        { s with writeBuf := s.writeBuf.drop takeLen, noise := sealed.2, lastActive := now }
      (r.1, sealed.1 :: r.2.1, r.2.2)
    | _ =>
      (.writeRawFailed, [sealed.1],
       { s with writeBuf := s.writeBuf.drop takeLen, noise := sealed.2 })
termination_by s.writeBuf.length
decreasing_by
  simp
  omega

/-- Errors surfaced by the write-side operations. -/
inductive WriteError where
  | closedPipe
  | deadlineExceeded
  | writeRawFailed
deriving DecidableEq, Repr

/-- Go `Conn.Write`: fail on a closed pipe or an elapsed deadline without
touching buffers, otherwise append the DATA frames and flush; on success the
accepted count `len(p)` is returned, on flush failure `(0, err)`. -/
def connWrite (oracle : List Bool) (now : ℕ) (p : List ℕ) (s : ConnState) :
    (ℕ × Option WriteError) × List (List ℕ) × ConnState :=
  if s.closed || s.closedWrite then ((0, some .closedPipe), [], s)
  else if deadlineExpired now s.writeDeadline then ((0, some .deadlineExceeded), [], s)
  else
    let r := connFlush oracle now
      { s with writeBuf := writeLoop (connMTU s.maxRawSize) s.writeBuf p }
    match r.1 with
    | .ok => ((p.length, none), r.2.1, r.2.2)
    | .writeRawFailed => ((0, some .writeRawFailed), r.2.1, r.2.2)

/-- Go `Conn.CloseWrite`: a no-op if the connection is closed or the write
side already closed; otherwise mark the write side closed, append a FIN
frame, and flush. -/
def connCloseWrite (oracle : List Bool) (now : ℕ) (s : ConnState) :
    Option WriteError × List (List ℕ) × ConnState :=
  if s.closed || s.closedWrite then (none, [], s)
  else
    let r := connFlush oracle now
      { s with closedWrite := true, writeBuf := BuildFrame s.writeBuf ⟨[], MsgTypeFin⟩ }
    ((match r.1 with | .ok => none | .writeRawFailed => some .writeRawFailed), r.2.1, r.2.2)

/-- The decrypt-and-append loop inside Go `Conn.Read`: repeatedly `UnsealData`
the accumulated raw bytes, collecting plaintexts, until a short buffer (the
normal exit, flag `true`) or a decryption failure; the fuel bounds the number
of iterations (each successful unseal consumes at least 20 bytes). -/
def unsealLoop (fuel : ℕ) (nh : Noise) (data : List ℕ) : List ℕ × List ℕ × Noise × Bool :=
  match fuel with
  | 0 => ([], data, nh, false)
  | fuel + 1 =>
    match nh.UnsealData data with
    | (.ok pt rest, nh1) =>
      let r := unsealLoop fuel nh1 rest
      (pt ++ r.1, r.2.1, r.2.2.1, r.2.2.2)
    | (.shortBuffer rest, nh1) => ([], rest, nh1, true)
    | (.decryptFailed, nh1) => ([], data, nh1, false)

/-- Successive Go `Conn.Read` calls with destination buffer sizes `sizes`,
collecting the returned byte slices until a non-data outcome. -/
def readCalls (now : ℕ) (sizes : List ℕ) (s : ConnState) : List (List ℕ) × ConnState :=
  match sizes with
  | [] => ([], s)
  | size :: rest =>
    match connRead now size s with
    | (.bytes out, s1) =>
      let r := readCalls now rest s1
      (out :: r.1, r.2)
    | (_, s1) => ([], s1)

/-- Successive Go `Conn.Write` calls, each flushing with an all-success raw
transport; collects the sealed chunks handed to `WriteRaw`. -/
def writeAll (now : ℕ) (xs : List (List ℕ)) (s : ConnState) : List (List ℕ) × ConnState :=
  match xs with
  | [] => ([], s)
  | x :: rest =>
    let w1 := writeLoop (connMTU s.maxRawSize) s.writeBuf x
    let r := connWrite (List.replicate w1.length true) now x s
    let r2 := writeAll now rest r.2.2
    (r.2.1 ++ r2.1, r2.2)

/-- A fresh established connection state with the given Noise session. -/
def freshConn (nh : Noise) (maxRawSize : ℕ) : ConnState :=
  { closed := false, closedRead := false, closedWrite := false,
    readBuf := [], readRemain := 0, writeBuf := [],
    peerLastSeen := 0, lastActive := 0,
    readDeadline := none, writeDeadline := none,
    noise := nh, maxRawSize := maxRawSize }

/-! ### Frame-layer and read-step lemmas -/

theorem dataFrameBytes_eq (pl : List ℕ) :
    dataFrameBytes pl = u32be pl.length ++ ([MsgTypeData] ++ pl) := by
  simp [dataFrameBytes, BuildFrame]

@[simp] theorem dataFrameBytes_length (pl : List ℕ) :
    (dataFrameBytes pl).length = 5 + pl.length := by
  simp [dataFrameBytes_eq]; omega

@[simp] theorem framesBytes_nil : framesBytes [] = [] := rfl

theorem framesBytes_cons (pl : List ℕ) (pls : List (List ℕ)) :
    framesBytes (pl :: pls) = dataFrameBytes pl ++ framesBytes pls := by
  simp [framesBytes]

theorem framesBytes_append (a b : List (List ℕ)) :
    framesBytes (a ++ b) = framesBytes a ++ framesBytes b := by
  simp [framesBytes]

theorem framesBytes_eq_nil (pls : List (List ℕ)) (h : framesBytes pls = []) :
    pls = [] := by
  cases pls with
  | nil => rfl
  | cons pl rest =>
    rw [framesBytes_cons] at h
    have := congrArg List.length h
    simp at this

theorem connRead_errClosed (now size : ℕ) (s : ConnState) (hc : s.closed = true) :
    connRead now size s = (.errClosed, s) := by
  rw [connRead]
  simp [hc]

theorem connRead_eof_closedRead (now size : ℕ) (s : ConnState)
    (hc : s.closed = false) (hr : s.closedRead = true) :
    connRead now size s = (.eof, s) := by
  rw [connRead]
  simp [hc, hr]

theorem connRead_remain (now size : ℕ) (s : ConnState)
    (hc : s.closed = false) (hr : s.closedRead = false)
    (hd : s.readDeadline = none) (hrem : 0 < s.readRemain) :
    connRead now size s =
      (.bytes (s.readBuf.take (min s.readRemain size)),
       { s with readBuf := s.readBuf.drop (min s.readRemain size),
                readRemain := s.readRemain - min s.readRemain size }) := by
  rw [connRead]
  simp [hc, hr, hd, deadlineExpired, hrem]

theorem connRead_data (now size : ℕ) (s : ConnState) (pl rest : List ℕ)
    (hc : s.closed = false) (hr : s.closedRead = false)
    (hd : s.readDeadline = none) (hrem : s.readRemain = 0)
    (hbuf : s.readBuf = dataFrameBytes pl ++ rest) (hpl : pl.length < 2 ^ 32) :
    connRead now size s =
      (.bytes (pl.take (min pl.length size)),
       { s with readBuf := pl.drop (min pl.length size) ++ rest,
                readRemain := pl.length - min pl.length size,
                peerLastSeen := now }) := by
  have hshape : s.readBuf = u32be pl.length ++ (([MsgTypeData] ++ pl) ++ rest) := by
    rw [hbuf, dataFrameBytes_eq]; simp
  have hlen : s.readBuf.length = 5 + pl.length + rest.length := by
    rw [hbuf]; simp
  have htake4 : s.readBuf.take 4 = u32be pl.length := by
    rw [hshape]; exact List.take_left' (by simp)
  have hfLen : beVal (s.readBuf.take 4) = pl.length := by
    rw [htake4, beVal_u32be _ hpl]
  have htype : s.readBuf.getD 4 0 = MsgTypeData := by
    rw [hshape]
    simp [u32be, List.getD_append, List.getD]
  have hdrop5 : s.readBuf.drop 5 = pl ++ rest := by
    rw [hshape]
    have : u32be pl.length ++ (([MsgTypeData] ++ pl) ++ rest) =
        (u32be pl.length ++ [MsgTypeData]) ++ (pl ++ rest) := by simp
    rw [this]
    exact List.drop_left' (by simp)
  have hdrop5n : ∀ n : ℕ, s.readBuf.drop (5 + n) = (pl ++ rest).drop n := by
    intro n
    rw [← List.drop_drop, hdrop5]
  rw [connRead]
  rw [hc, hr, hd, hrem]
  simp only [Bool.false_eq_true, if_false, deadlineExpired, lt_irrefl]
  rw [dif_pos (by omega)]
  simp only [hfLen, htype]
  rw [if_pos (by omega)]
  simp only [if_true]
  have hmin : min pl.length size ≤ pl.length := Nat.min_le_left _ _
  rw [hdrop5, hdrop5n]
  rw [List.take_append_of_le_length hmin, List.drop_append_of_le_length hmin]

theorem connRead_fin (now size : ℕ) (s : ConnState) (rest : List ℕ)
    (hc : s.closed = false) (hr : s.closedRead = false)
    (hd : s.readDeadline = none) (hrem : s.readRemain = 0)
    (hbuf : s.readBuf = finFrameBytes ++ rest) :
    connRead now size s =
      (.eof, { s with readBuf := rest, closedRead := true, peerLastSeen := now }) := by
  have hshape : s.readBuf = u32be 0 ++ ([MsgTypeFin] ++ rest) := by
    rw [hbuf]; simp [finFrameBytes, BuildFrame]
  have hlen : s.readBuf.length = 5 + rest.length := by
    rw [hshape]; simp; omega
  have htake4 : s.readBuf.take 4 = u32be 0 := by
    rw [hshape]; exact List.take_left' (by simp)
  have hfLen : beVal (s.readBuf.take 4) = 0 := by
    rw [htake4]; decide
  have htype : s.readBuf.getD 4 0 = MsgTypeFin := by
    rw [hshape]
    simp [u32be, List.getD_append, List.getD]
  have hdrop5 : s.readBuf.drop (5 + 0) = rest := by
    rw [hshape]
    have : u32be 0 ++ ([MsgTypeFin] ++ rest) = (u32be 0 ++ [MsgTypeFin]) ++ rest := by simp
    rw [this]
    exact List.drop_left' (by simp)
  rw [connRead]
  rw [hc, hr, hd, hrem]
  simp only [Bool.false_eq_true, if_false, deadlineExpired, lt_irrefl]
  rw [dif_pos (by omega)]
  simp only [hfLen, htype]
  rw [if_pos (by omega), if_neg (by decide)]
  simp only [if_true, hdrop5]

theorem connRead_noData (now size : ℕ) (s : ConnState)
    (hc : s.closed = false) (hr : s.closedRead = false)
    (hd : s.readDeadline = none) (hrem : s.readRemain = 0)
    (hbuf : s.readBuf.length < 5) :
    connRead now size s = (.noData, s) := by
  rw [connRead]
  rw [hc, hr, hd, hrem]
  simp only [Bool.false_eq_true, if_false, deadlineExpired, lt_irrefl]
  rw [dif_neg (by omega)]

/-- Draining a read buffer that holds a partially consumed payload `pref`
followed by complete DATA frames with payloads `pls`: with enough Read calls
of positive buffer sizes, the returned slices concatenate exactly to
`pref ++ pls.flatten`. -/
theorem readCalls_drain (now : ℕ) (sizes : List ℕ) (s : ConnState)
    (pref : List ℕ) (pls : List (List ℕ))
    (hbuf : s.readBuf = pref ++ framesBytes pls)
    (hrem : s.readRemain = pref.length)
    (hpls : ∀ pl ∈ pls, pl.length < 2 ^ 32)
    (hsz : ∀ z ∈ sizes, 1 ≤ z)
    (hn : s.readBuf.length ≤ sizes.length)
    (hc : s.closed = false) (hr : s.closedRead = false)
    (hd : s.readDeadline = none) :
    (readCalls now sizes s).1.flatten = pref ++ pls.flatten := by
  induction sizes generalizing s pref pls with
  | nil =>
    have hempty : s.readBuf = [] := by
      simpa using hn
    rw [hempty] at hbuf
    have hpref : pref = [] := by
      cases pref with
      | nil => rfl
      | cons a b => exact absurd (congrArg List.length hbuf) (by simp)
    have hplsnil : pls = [] := by
      apply framesBytes_eq_nil
      rw [hpref] at hbuf
      exact hbuf.symm
    rw [hpref, hplsnil]
    simp [readCalls]
  | cons size rest ih =>
    have hsize : 1 ≤ size := hsz size (by simp)
    have hszrest : ∀ z ∈ rest, 1 ≤ z := fun z hz => hsz z (by simp [hz])
    cases pref with
    | cons c pref' =>
      have hrempos : 0 < s.readRemain := by rw [hrem]; simp
      have hstep := connRead_remain now size s hc hr hd hrempos
      set n := min s.readRemain size with hn2
      have hnle : n ≤ (c :: pref').length := by rw [hn2, hrem]; exact Nat.min_le_left _ _
      have hn1 : 1 ≤ n := by
        rw [hn2, hrem]
        simp [Nat.le_min, hsize]
      have htak : s.readBuf.take n = (c :: pref').take n := by
        rw [hbuf]; exact List.take_append_of_le_length hnle
      have hdrp : s.readBuf.drop n = (c :: pref').drop n ++ framesBytes pls := by
        rw [hbuf]; exact List.drop_append_of_le_length hnle
      have hlen1 : s.readBuf.length ≤ rest.length + 1 := by simpa using hn
      rw [readCalls, hstep]
      simp only
      have hrec := ih { s with readBuf := s.readBuf.drop n,
                               readRemain := s.readRemain - n }
        ((c :: pref').drop n) pls
        (by simpa using hdrp)
        (by simp [hrem])
        hpls hszrest
        (by simp; omega)
        (by simp [hc]) (by simp [hr]) (by simp [hd])
      simp only at hrec
      rw [List.flatten_cons, hrec, htak]
      rw [← List.append_assoc, List.take_append_drop]
    | nil =>
      cases pls with
      | nil =>
        have hempty : s.readBuf = [] := by simpa using hbuf
        have hnd := connRead_noData now size s hc hr hd (by simpa using hrem)
          (by rw [hempty]; simp)
        rw [readCalls, hnd]
        simp
      | cons pl pls' =>
        have hpl : pl.length < 2 ^ 32 := hpls pl (by simp)
        have hplr : ∀ q ∈ pls', q.length < 2 ^ 32 := fun q hq => hpls q (by simp [hq])
        have hbuf2 : s.readBuf = dataFrameBytes pl ++ framesBytes pls' := by
          rw [hbuf, framesBytes_cons]; simp
        have hstep := connRead_data now size s pl (framesBytes pls')
          hc hr hd (by simpa using hrem) hbuf2 hpl
        set n := min pl.length size with hn2
        have hlenbuf : s.readBuf.length = 5 + pl.length + (framesBytes pls').length := by
          rw [hbuf2]; simp
        have hlen1 : s.readBuf.length ≤ rest.length + 1 := by simpa using hn
        have hnle : n ≤ pl.length := Nat.min_le_left _ _
        rw [readCalls, hstep]
        simp only
        have hrec := ih { s with readBuf := pl.drop n ++ framesBytes pls',
                                 readRemain := pl.length - n,
                                 peerLastSeen := now }
          (pl.drop n) pls'
          (by simp)
          (by simp)
          hplr hszrest
          (by simp; omega)
          (by simp [hc]) (by simp [hr]) (by simp [hd])
        simp only at hrec
        rw [List.flatten_cons, hrec]
        rw [List.flatten_cons, ← List.append_assoc, ← List.append_assoc,
          List.take_append_drop]
        simp

/-! ### Write-side lemmas -/

theorem take_min_length (p : List ℕ) (m : ℕ) : p.take (min p.length m) = p.take m := by
  rcases le_total m p.length with h | h
  · rw [Nat.min_eq_right h]
  · rw [Nat.min_eq_left h, List.take_length, List.take_of_length_le h]

theorem drop_min_length (p : List ℕ) (m : ℕ) : p.drop (min p.length m) = p.drop m := by
  rcases le_total m p.length with h | h
  · rw [Nat.min_eq_right h]
  · rw [Nat.min_eq_left h, List.drop_length, List.drop_eq_nil_of_le h]

theorem BuildFrame_split (wbuf pl : List ℕ) (t : ℕ) :
    BuildFrame wbuf ⟨pl, t⟩ = wbuf ++ BuildFrame [] ⟨pl, t⟩ := by
  simp [BuildFrame]

/-- The Go `Conn.Write` loop appends exactly the DATA-frame encodings of the
`mtu`-sized payload slices. -/
theorem writeLoop_eq (mtu : ℕ) (p wbuf : List ℕ) :
    writeLoop mtu wbuf p = wbuf ++ framesBytes (chunksOf mtu p) := by
  generalize hk : p.length = k
  induction k using Nat.strong_induction_on generalizing p wbuf with
  | _ k ih =>
    by_cases h0 : p.length = 0
    · rw [writeLoop, chunksOf, dif_pos h0, dif_pos h0]
      simp
    · by_cases hm : mtu = 0
      · rw [writeLoop, chunksOf, dif_neg h0, dif_neg h0, dif_pos hm, dif_pos hm]
        simp
      · rw [writeLoop, chunksOf, dif_neg h0, dif_neg h0, dif_neg hm, dif_neg hm]
        simp only
        have hlt : (p.drop (min p.length mtu)).length < k := by
          simp; omega
        rw [ih (p.drop (min p.length mtu)).length hlt _ _ rfl]
        rw [take_min_length, drop_min_length, framesBytes_cons,
          BuildFrame_split]
        rw [← dataFrameBytes]
        simp

/-- Slicing then concatenating is the identity (for positive `mtu`). -/
theorem chunksOf_flatten (mtu : ℕ) (hm : mtu ≠ 0) (p : List ℕ) :
    (chunksOf mtu p).flatten = p := by
  generalize hk : p.length = k
  induction k using Nat.strong_induction_on generalizing p with
  | _ k ih =>
    by_cases h0 : p.length = 0
    · rw [chunksOf, dif_pos h0]
      simp at h0
      simp [h0]
    · rw [chunksOf, dif_neg h0, dif_neg hm]
      rw [List.flatten_cons, ih (p.drop mtu).length (by simp; omega) _ rfl]
      exact List.take_append_drop mtu p

/-- Every payload slice produced by the `Conn.Write` loop fits in `mtu`. -/
theorem chunksOf_length_le (mtu : ℕ) (p : List ℕ) :
    ∀ c ∈ chunksOf mtu p, c.length ≤ mtu := by
  generalize hk : p.length = k
  induction k using Nat.strong_induction_on generalizing p with
  | _ k ih =>
    intro c hc
    by_cases h0 : p.length = 0
    · rw [chunksOf, dif_pos h0] at hc
      simp at hc
    · by_cases hm : mtu = 0
      · rw [chunksOf, dif_neg h0, dif_pos hm] at hc
        simp at hc
      · rw [chunksOf, dif_neg h0, dif_neg hm] at hc
        rcases List.mem_cons.mp hc with h | h
        · rw [h]
          simp
        · exact ih (p.drop mtu).length (by simp; omega) _ rfl c h

/-! ### Flush and seal-stream lemmas -/

@[simp] theorem SealData_sendNonce (nh : Noise) (pt : List ℕ) :
    (nh.SealData pt).2.sendNonce = nh.sendNonce + 1 := by
  cases h : nh.isInitiator <;>
    simp [Noise.SealData, Noise.EncryptData, Noise.sendNonce, h]

@[simp] theorem recvAdvance_recvNonce (b : Noise) :
    b.recvAdvance.recvNonce = b.recvNonce + 1 := by
  cases h : b.isInitiator <;>
    simp [Noise.recvAdvance, Noise.recvNonce, h]

/-- Chunk sequences obtained by sealing successive plaintext slices on one
session (each slice small enough for its 4-byte length prefix), as `flush`
produces them. -/
inductive SealedFrom : Noise → List (List ℕ) → List ℕ → Noise → Prop where
  | nil (nh : Noise) : SealedFrom nh [] [] nh
  | cons (nh nh2 : Noise) (pt w : List ℕ) (chunks : List (List ℕ))
      (hlen : pt.length + 16 < 2 ^ 32)
      (hrest : SealedFrom (nh.SealData pt).2 chunks w nh2) :
      SealedFrom nh ((nh.SealData pt).1 :: chunks) (pt ++ w) nh2

theorem SealedFrom.append (nh nh1 nh2 : Noise) (c1 c2 : List (List ℕ)) (w1 w2 : List ℕ)
    (h1 : SealedFrom nh c1 w1 nh1) (h2 : SealedFrom nh1 c2 w2 nh2) :
    SealedFrom nh (c1 ++ c2) (w1 ++ w2) nh2 := by
  induction h1 with
  | nil => simpa using h2
  | cons nh nh2x pt w chunks hlen hrest ih =>
    simpa using SealedFrom.cons _ _ pt (w ++ w2) (chunks ++ c2) hlen (ih h2)

/-- `connFlush` only changes the write buffer, Noise state, and `lastActive`. -/
theorem connFlush_state (oracle : List Bool) (now : ℕ) (s : ConnState) :
    ∃ wb nh la, (connFlush oracle now s).2.2 =
      { s with writeBuf := wb, noise := nh, lastActive := la } := by
  generalize hk : s.writeBuf.length = k
  induction k using Nat.strong_induction_on generalizing s oracle with
  | _ k ih =>
    by_cases h0 : s.writeBuf.length = 0
    · rw [connFlush, dif_pos h0]
      exact ⟨s.writeBuf, s.noise, s.lastActive, rfl⟩
    · by_cases hm : s.maxRawSize - NoiseOverhead = 0
      · rw [connFlush, dif_neg h0, dif_pos hm]
        exact ⟨s.writeBuf, s.noise, s.lastActive, rfl⟩
      · rw [connFlush, dif_neg h0, dif_neg hm]
        cases oracle with
        | nil => exact ⟨_, _, s.lastActive, rfl⟩
        | cons o rest =>
          cases o with
          | false => exact ⟨_, _, s.lastActive, rfl⟩
          | true =>
            simp only
            have hlt : (s.writeBuf.drop (min s.writeBuf.length (s.maxRawSize - NoiseOverhead))).length < k := by
              simp
              omega
            obtain ⟨wb, nh, la, hrec⟩ := ih _ hlt rest
              { s with writeBuf := s.writeBuf.drop (min s.writeBuf.length (s.maxRawSize - NoiseOverhead)),
                       noise := (s.noise.SealData (s.writeBuf.take (min s.writeBuf.length (s.maxRawSize - NoiseOverhead)))).2,
                       lastActive := now }
              rfl
            rw [hrec]
            exact ⟨wb, nh, la, rfl⟩

/-- A successful `connFlush` (enough raw writes succeed) empties the write
buffer and hands `WriteRaw` exactly the sealed chunk sequence of the buffered
bytes. -/
theorem connFlush_ok (now : ℕ) (s : ConnState) (k : ℕ)
    (hk : s.writeBuf.length ≤ k)
    (hm : NoiseOverhead < s.maxRawSize) (h32 : s.maxRawSize < 2 ^ 32) :
    (connFlush (List.replicate k true) now s).1 = .ok ∧
    (connFlush (List.replicate k true) now s).2.2.writeBuf = [] ∧
    SealedFrom s.noise (connFlush (List.replicate k true) now s).2.1 s.writeBuf
      (connFlush (List.replicate k true) now s).2.2.noise := by
  generalize hl : s.writeBuf.length = l
  induction l using Nat.strong_induction_on generalizing s k with
  | _ l ih =>
    by_cases h0 : s.writeBuf.length = 0
    · rw [connFlush, dif_pos h0]
      have : s.writeBuf = [] := List.eq_nil_of_length_eq_zero h0
      rw [this]
      exact ⟨rfl, this ▸ rfl, SealedFrom.nil s.noise⟩
    · have hmc : s.maxRawSize - NoiseOverhead ≠ 0 := by omega
      rw [connFlush, dif_neg h0, dif_neg hmc]
      cases k with
      | zero => omega
      | succ k =>
        rw [List.replicate_succ]
        simp only
        set takeLen := min s.writeBuf.length (s.maxRawSize - NoiseOverhead) with htl
        have htl1 : 1 ≤ takeLen := by rw [htl]; omega
        have htlle : takeLen ≤ s.maxRawSize - NoiseOverhead := by
          rw [htl]; exact Nat.min_le_right _ _
        set s1 : ConnState :=
          { s with writeBuf := s.writeBuf.drop takeLen,
                   noise := (s.noise.SealData (s.writeBuf.take takeLen)).2,
                   lastActive := now } with hs1
        have hlt : s1.writeBuf.length < l := by
          rw [hs1]; simp; omega
        have hk1 : s1.writeBuf.length ≤ k := by
          rw [hs1]; simp; omega
        obtain ⟨ho, hwb, hsf⟩ := ih s1.writeBuf.length hlt s1 k hk1 hm h32 rfl
        refine ⟨ho, hwb, ?_⟩
        have hsplit : s.writeBuf = s.writeBuf.take takeLen ++ s.writeBuf.drop takeLen :=
          (List.take_append_drop _ _).symm
        nth_rewrite 2 [hsplit]
        exact SealedFrom.cons _ _ _ _ _
          (by
            have h1 : (s.writeBuf.take takeLen).length ≤ takeLen := by simp
            have h2 : NoiseOverhead = 20 := rfl
            omega)
          hsf

/-- All payload slices of a sequence of `Write` calls. -/
def allPayloadChunks (mtu : ℕ) (xs : List (List ℕ)) : List (List ℕ) :=
  (xs.map (chunksOf mtu)).flatten

/-- A sequence of `Write` calls over an all-success transport leaves the
write buffer empty, only advances the Noise sender state, and hands
`WriteRaw` the sealed chunk sequence of the concatenated DATA frames. -/
theorem writeAll_chunks (now : ℕ) (xs : List (List ℕ)) (s : ConnState)
    (hc : s.closed = false) (hw : s.closedWrite = false) (hd : s.writeDeadline = none)
    (hwb : s.writeBuf = [])
    (hm : NoiseOverhead < s.maxRawSize) (h32 : s.maxRawSize < 2 ^ 32) :
    SealedFrom s.noise (writeAll now xs s).1
      (framesBytes (allPayloadChunks (connMTU s.maxRawSize) xs))
      (writeAll now xs s).2.noise ∧
    ∃ la, (writeAll now xs s).2 =
      { s with noise := (writeAll now xs s).2.noise, lastActive := la } := by
  induction xs generalizing s with
  | nil =>
    refine ⟨?_, s.lastActive, ?_⟩
    · simpa [writeAll, allPayloadChunks] using SealedFrom.nil s.noise
    · simp [writeAll]
  | cons x rest ih =>
    rw [writeAll]
    simp only
    set w1 := writeLoop (connMTU s.maxRawSize) s.writeBuf x with hw1
    have hwrite : connWrite (List.replicate w1.length true) now x s =
        ((x.length, none),
         (connFlush (List.replicate w1.length true) now { s with writeBuf := w1 }).2.1,
         (connFlush (List.replicate w1.length true) now { s with writeBuf := w1 }).2.2) := by
      rw [connWrite, if_neg (by simp [hc, hw]), if_neg (by simp [hd, deadlineExpired])]
      have hok := (connFlush_ok now { s with writeBuf := w1 } w1.length
        (by simp) hm h32).1
      simp only at hok ⊢
      rw [hok]
    rw [hwrite]
    simp only
    obtain ⟨hok, hempty, hsf⟩ := connFlush_ok now { s with writeBuf := w1 } w1.length
      (by simp) hm h32
    obtain ⟨wb2, nh2, la2, hstate⟩ :=
      connFlush_state (List.replicate w1.length true) now { s with writeBuf := w1 }
    set s2 := (connFlush (List.replicate w1.length true) now { s with writeBuf := w1 }).2.2
      with hs2
    have hwb2 : wb2 = [] := by
      have h := hempty
      rw [hstate] at h
      exact h
    have hs2closed : s2.closed = false := by
      rw [hstate]
      exact hc
    have hs2w : s2.closedWrite = false := by
      rw [hstate]
      exact hw
    have hs2d : s2.writeDeadline = none := by
      rw [hstate]
      exact hd
    have hs2m : s2.maxRawSize = s.maxRawSize := by
      rw [hstate]
    obtain ⟨ihsf, la3, ihstate⟩ := ih s2 hs2closed hs2w hs2d hempty
      (by rw [hs2m]; exact hm) (by rw [hs2m]; exact h32)
    constructor
    · have hframes : framesBytes (allPayloadChunks (connMTU s.maxRawSize) (x :: rest)) =
          w1 ++ framesBytes (allPayloadChunks (connMTU s.maxRawSize) rest) := by
        rw [allPayloadChunks]
        simp only [List.map_cons, List.flatten_cons]
        rw [framesBytes_append, hw1, writeLoop_eq, hwb]
        simp [allPayloadChunks]
      rw [hframes]
      have hsnoise : ({ s with writeBuf := w1 } : ConnState).noise = s.noise := rfl
      have hmtu : s2.noise = (connFlush (List.replicate w1.length true) now
          { s with writeBuf := w1 }).2.2.noise := by rw [hs2]
      refine SealedFrom.append s.noise s2.noise _ _ _ _ _ ?_ ?_
      · have := hsf
        simpa using this
      · rw [hs2m] at ihsf
        exact ihsf
    · refine ⟨la3, ?_⟩
      rw [ihstate]
      rw [hstate]
      simp [hwb2, hwb]

/-- The receiver state after `n` successful receives. -/
def Noise.recvAdvanceN (b : Noise) : ℕ → Noise
  | 0 => b
  | n + 1 => b.recvAdvance.recvAdvanceN n

/-- The Go read-side decrypt loop inverts a sealed chunk stream: feeding the
concatenation of a `SealedFrom` chunk sequence to `unsealLoop` on the peer
session (matching nonce) recovers exactly the original plaintext bytes and
consumes everything. -/
theorem unsealLoop_sealedFrom (nh nh2 : Noise) (chunks : List (List ℕ)) (w : List ℕ)
    (hs : SealedFrom nh chunks w nh2) :
    ∀ (b : Noise) (fuel : ℕ), b.recvNonce = nh.sendNonce → chunks.length < fuel →
      unsealLoop fuel b chunks.flatten = (w, [], b.recvAdvanceN chunks.length, true) := by
  induction hs with
  | nil nh =>
    intro b fuel hnonce hfuel
    cases fuel with
    | zero => omega
    | succ fuel =>
      rw [unsealLoop]
      have : b.UnsealData [] = (.shortBuffer [], b) := by
        rw [Noise.UnsealData, if_pos (by simp)]
      rw [List.flatten_nil, this]
      simp [Noise.recvAdvanceN]
  | cons nhx nh2x pt wx chunksx hlen hrest ih =>
    intro b fuel hnonce hfuel
    cases fuel with
    | zero => simp at hfuel
    | succ fuel =>
      rw [unsealLoop]
      rw [List.flatten_cons, SealData_eq]
      simp only
      have hchunk : b.UnsealData
          (u32be (pt.length + 16) ++ aeadEncrypt nhx.sendNonce pt ++ chunksx.flatten) =
          (.ok pt chunksx.flatten, b.recvAdvance) := by
        rw [List.append_assoc]
        exact UnsealData_chunk b nhx.sendNonce pt chunksx.flatten hlen hnonce
      rw [hchunk]
      simp only
      have hrec := ih b.recvAdvance fuel
        (by rw [recvAdvance_recvNonce, hnonce, SealData_sendNonce])
        (by simp at hfuel; omega)
      rw [hrec]
      simp [Noise.recvAdvanceN, Noise.recvAdvance]

/-! ### Listener janitor (aznet.go `Listener.janitor`) -/

/-- The per-connection state the janitor inspects. -/
structure JanitorConn where
  closed : Bool
  closedRead : Bool
  peerLastSeen : ℤ
deriving DecidableEq, Repr

/-- The eviction test of one janitor tick:
`(closed && closedRead) || time.Since(peerLastSeen) > idleTimeout`. -/
def evictCond (now idleTimeout : ℤ) (c : JanitorConn) : Bool :=
  (c.closed && c.closedRead) || decide (now - c.peerLastSeen > idleTimeout)

/-- The side effects the janitor performs for one evicted connection. -/
inductive JanitorOp where
  | connClose
  | deleteToken
  | cleanupSession
  | removeFromMap
deriving DecidableEq, Repr

/-- The eviction sequence: `conn.Close()`, `DeleteToken`, `CleanupSession`,
then removal from the live map. -/
def evictOps : List JanitorOp :=
  [.connClose, .deleteToken, .cleanupSession, .removeFromMap]

/-- One janitor tick over the live map (as an association list): returns the
surviving map and, per evicted connection, the performed operations. -/
def janitorTick (now idleTimeout : ℤ) (conns : List (ℕ × JanitorConn)) :
    List (ℕ × JanitorConn) × List (ℕ × List JanitorOp) :=
  match conns with
  | [] => ([], [])
  | (i, c) :: rest =>
    let r := janitorTick now idleTimeout rest
    if evictCond now idleTimeout c then (r.1, (i, evictOps) :: r.2)
    else ((i, c) :: r.1, r.2)

theorem janitorTick_kept (now idle : ℤ) (conns : List (ℕ × JanitorConn)) :
    (janitorTick now idle conns).1 =
      conns.filter (fun ic => !evictCond now idle ic.2) := by
  induction conns with
  | nil => rfl
  | cons hd rest ih =>
    obtain ⟨i, c⟩ := hd
    by_cases h : evictCond now idle c <;>
      simp [janitorTick, List.filter_cons, h, ih]

theorem janitorTick_evicted (now idle : ℤ) (conns : List (ℕ × JanitorConn)) :
    (janitorTick now idle conns).2 =
      (conns.filter (fun ic => evictCond now idle ic.2)).map
        (fun ic => (ic.1, evictOps)) := by
  induction conns with
  | nil => rfl
  | cons hd rest ih =>
    obtain ⟨i, c⟩ := hd
    by_cases h : evictCond now idle c <;>
      simp [janitorTick, List.filter_cons, h, ih]

theorem keys_nodup_val_eq {l : List (ℕ × JanitorConn)}
    (h : (l.map Prod.fst).Nodup) {i : ℕ} {c c2 : JanitorConn}
    (h1 : (i, c) ∈ l) (h2 : (i, c2) ∈ l) : c = c2 := by
  induction l with
  | nil => simp at h1
  | cons hd rest ih =>
    simp only [List.map_cons, List.nodup_cons] at h
    rcases List.mem_cons.mp h1 with e1 | m1 <;> rcases List.mem_cons.mp h2 with e2 | m2
    · injection e1.trans e2.symm with hfst hsnd
    · exfalso
      apply h.1
      have hh : hd.1 = i := by rw [← e1]
      rw [hh]
      exact List.mem_map.mpr ⟨(i, c2), m2, rfl⟩
    · exfalso
      apply h.1
      have hh : hd.1 = i := by rw [← e2]
      rw [hh]
      exact List.mem_map.mpr ⟨(i, c), m1, rfl⟩
    · exact ih h.2 m1 m2

/-- C9: Janitor eviction.  On a tick, a connection in the live map is evicted
— `Close`, `DeleteToken`, `CleanupSession`, and removal from the map, in that
order — if and only if both `closed` and `closedRead` are set or
`now − peerLastSeen` strictly exceeds the idle timeout; connections meeting
neither condition stay in the map untouched, with no operations performed on
them. -/
theorem janitor_eviction (now idle : ℤ) (conns : List (ℕ × JanitorConn))
    (hnodup : (conns.map Prod.fst).Nodup) :
    (janitorTick now idle conns).1 =
      conns.filter (fun ic => !evictCond now idle ic.2) ∧
    (janitorTick now idle conns).2 =
      (conns.filter (fun ic => evictCond now idle ic.2)).map
        (fun ic => (ic.1, evictOps)) ∧
    ∀ i c, (i, c) ∈ conns →
      ((((c.closed && c.closedRead) || decide (now - c.peerLastSeen > idle)) = true ↔
          (i, evictOps) ∈ (janitorTick now idle conns).2) ∧
       (((c.closed && c.closedRead) || decide (now - c.peerLastSeen > idle)) = false ↔
          (i, c) ∈ (janitorTick now idle conns).1)) := by
  refine ⟨janitorTick_kept now idle conns, janitorTick_evicted now idle conns, ?_⟩
  intro i c hmem
  constructor
  · constructor
    · intro hev
      rw [janitorTick_evicted]
      exact List.mem_map.mpr ⟨(i, c), List.mem_filter.mpr ⟨hmem, hev⟩, rfl⟩
    · intro hin
      rw [janitorTick_evicted] at hin
      obtain ⟨⟨j, c2⟩, hfil, heq⟩ := List.mem_map.mp hin
      obtain ⟨hmem2, hev2⟩ := List.mem_filter.mp hfil
      have hij : j = i := congrArg Prod.fst heq
      rw [hij] at hmem2
      have : c2 = c := keys_nodup_val_eq hnodup hmem2 hmem
      rw [← this]
      exact hev2
  · constructor
    · intro hev
      rw [janitorTick_kept]
      refine List.mem_filter.mpr ⟨hmem, ?_⟩
      show (!evictCond now idle c) = true
      rw [Bool.not_eq_true']
      exact hev
    · intro hin
      rw [janitorTick_kept] at hin
      have h3 : (!evictCond now idle c) = true := (List.mem_filter.mp hin).2
      rw [Bool.not_eq_true'] at h3
      exact h3

/-- Closed witness for `janitor_eviction`: with `now = 6`, `idle = 10`, a
closed-and-read-closed connection is evicted with the four cleanup
operations while a recently seen one stays. -/
theorem janitor_eviction_witness :
    (0, evictOps) ∈ (janitorTick 6 10
      [(0, JanitorConn.mk true true 0), (1, JanitorConn.mk false false 5)]).2 ∧
    (1, JanitorConn.mk false false 5) ∈ (janitorTick 6 10
      [(0, JanitorConn.mk true true 0), (1, JanitorConn.mk false false 5)]).1 := by
  have h := janitor_eviction 6 10
    [(0, JanitorConn.mk true true 0), (1, JanitorConn.mk false false 5)] (by decide)
  exact ⟨(h.2.2 0 (JanitorConn.mk true true 0) (by decide)).1.mp (by decide),
         (h.2.2 1 (JanitorConn.mk false false 5) (by decide)).2.mp (by decide)⟩

/-! ### Size bounds (C3) -/

/-- Every chunk `flush` hands to `WriteRaw` is a sealed slice of at most
`MaxRawSize - NoiseOverhead` plaintext bytes plus 20 bytes of overhead. -/
theorem connFlush_chunk_shape (oracle : List Bool) (now : ℕ) (s : ConnState) :
    ∀ ch ∈ (connFlush oracle now s).2.1,
      ∃ ptl, ptl ≤ s.maxRawSize - NoiseOverhead ∧ ch.length = ptl + 20 := by
  generalize hk : s.writeBuf.length = k
  induction k using Nat.strong_induction_on generalizing s oracle with
  | _ k ih =>
    intro ch hch
    by_cases h0 : s.writeBuf.length = 0
    · rw [connFlush, dif_pos h0] at hch
      simp at hch
    · by_cases hm : s.maxRawSize - NoiseOverhead = 0
      · rw [connFlush, dif_neg h0, dif_pos hm] at hch
        simp at hch
      · rw [connFlush, dif_neg h0, dif_neg hm] at hch
        have hshape : ∀ pt : List ℕ,
            ((s.noise.SealData pt).1).length = pt.length + 20 := by
          intro pt
          rw [SealData_eq]
          simp
          omega
        have hptl : (s.writeBuf.take (min s.writeBuf.length (s.maxRawSize - NoiseOverhead))).length ≤
            s.maxRawSize - NoiseOverhead := by
          simp
        cases oracle with
        | nil =>
          simp only at hch
          rcases List.mem_singleton.mp hch with h
          rw [h, hshape]
          exact ⟨_, hptl, rfl⟩
        | cons o rest =>
          cases o with
          | false =>
            simp only at hch
            rcases List.mem_singleton.mp hch with h
            rw [h, hshape]
            exact ⟨_, hptl, rfl⟩
          | true =>
            simp only at hch
            rcases List.mem_cons.mp hch with h | h
            · rw [h, hshape]
              exact ⟨_, hptl, rfl⟩
            · have hlt : (s.writeBuf.drop (min s.writeBuf.length (s.maxRawSize - NoiseOverhead))).length < k := by
                simp
                omega
              obtain ⟨ptl, hle, hlen⟩ := ih _ hlt rest
                { s with writeBuf := s.writeBuf.drop (min s.writeBuf.length (s.maxRawSize - NoiseOverhead)),
                         noise := (s.noise.SealData (s.writeBuf.take (min s.writeBuf.length (s.maxRawSize - NoiseOverhead)))).2,
                         lastActive := now }
                rfl ch h
              exact ⟨ptl, hle, hlen⟩

/-- C3: Size bounds.  `mtu = MaxRawSize − 20 − 5`; every DATA-frame payload
sliced by `Write` is at most `mtu` bytes; every sealed chunk handed to
`WriteRaw` by `flush` was sealed from at most `MaxRawSize − 20` plaintext
bytes, so its ciphertext (with the 16-byte tag) is at most `MaxRawSize − 4`
bytes and the whole chunk at most `MaxRawSize` bytes. -/
theorem size_bounds (maxRaw : ℕ) (h26 : 26 ≤ maxRaw) :
    connMTU maxRaw = maxRaw - 20 - 5 ∧
    (∀ p : List ℕ, ∀ c ∈ chunksOf (connMTU maxRaw) p, c.length ≤ connMTU maxRaw) ∧
    (∀ (oracle : List Bool) (now : ℕ) (s : ConnState), s.maxRawSize = maxRaw →
      ∀ ch ∈ (connFlush oracle now s).2.1,
        ch.length - 20 ≤ maxRaw - 20 ∧ ch.length - 4 ≤ maxRaw - 4 ∧
        ch.length ≤ maxRaw) := by
  refine ⟨rfl, fun p => chunksOf_length_le (connMTU maxRaw) p, ?_⟩
  intro oracle now s hmax ch hch
  obtain ⟨ptl, hle, hlen⟩ := connFlush_chunk_shape oracle now s ch hch
  rw [hmax] at hle
  have h20 : NoiseOverhead = 20 := rfl
  rw [h20] at hle
  omega

/-- Closed witness for `size_bounds` at `MaxRawSize = 26` and the one-byte
write `[5]` (whose single slice is the payload itself). -/
theorem size_bounds_witness :
    connMTU 26 = 26 - 20 - 5 ∧ ([5] : List ℕ).length ≤ connMTU 26 := by
  have h := size_bounds 26 (by decide)
  refine ⟨h.1, h.2.1 [5] [5] ?_⟩
  rw [chunksOf]
  rw [dif_neg (by decide)]
  rw [dif_neg (by decide)]
  simp
  left
  decide

/-- C10: Read with a zero-length destination.  On an open connection whose
read buffer starts with a complete DATA frame of payload length `L > 0`, a
Read with an empty destination consumes the 5-byte header, copies nothing,
sets `readRemain = L`, stamps `peerLastSeen`, and returns 0 bytes with no
error — it neither blocks nor loops — while the `L` payload bytes stay
buffered. -/
theorem read_zero_size (now : ℕ) (s : ConnState) (L : ℕ) (payload rest : List ℕ)
    (hc : s.closed = false) (hr : s.closedRead = false) (hd : s.readDeadline = none)
    (hrem : s.readRemain = 0)
    (hbuf : s.readBuf = dataFrameBytes payload ++ rest)
    (hL : payload.length = L) (hpos : 0 < L) (h32 : L < 2 ^ 32) :
    connRead now 0 s =
      (.bytes [], { s with readBuf := payload ++ rest, readRemain := L,
                           peerLastSeen := now }) := by
  have h := connRead_data now 0 s payload rest hc hr hd hrem hbuf (by omega)
  rw [h, hL]
  simp

/-- Closed witness for `read_zero_size`: a one-byte DATA frame `[7]` under a
zero-length read. -/
theorem read_zero_size_witness :
    connRead 5 0 { freshConn (Noise.mk 0 0 true false) 26 with
        readBuf := dataFrameBytes [7] ++ [] } =
      (.bytes [], { freshConn (Noise.mk 0 0 true false) 26 with
        readBuf := [7] ++ [], readRemain := 1, peerLastSeen := 5 }) :=
  read_zero_size 5
    { freshConn (Noise.mk 0 0 true false) 26 with readBuf := dataFrameBytes [7] ++ [] }
    1 [7] [] rfl rfl rfl rfl rfl rfl (by decide) (by decide)

/-- `Conn.Read` never touches the write side: the closed flags and the write
buffer survive any single read call (including its internal skip loop). -/
theorem connRead_preserves_write_side (now size : ℕ) (s : ConnState) :
    (connRead now size s).2.closedWrite = s.closedWrite ∧
    (connRead now size s).2.closed = s.closed ∧
    (connRead now size s).2.writeBuf = s.writeBuf := by
  generalize hk : s.readBuf.length = k
  induction k using Nat.strong_induction_on generalizing s with
  | _ k ih =>
    rw [connRead]
    split
    · exact ⟨rfl, rfl, rfl⟩
    · split
      · exact ⟨rfl, rfl, rfl⟩
      · split
        · exact ⟨rfl, rfl, rfl⟩
        · split
          · exact ⟨rfl, rfl, rfl⟩
          · split
            · dsimp only
              split
              · split
                · exact ⟨rfl, rfl, rfl⟩
                · split
                  · exact ⟨rfl, rfl, rfl⟩
                  · exact ih _ (by simp; omega) _ rfl
              · exact ⟨rfl, rfl, rfl⟩
            · exact ⟨rfl, rfl, rfl⟩

/-- C6: Half-close.  After `CloseWrite` returns, the write side is marked
closed (the read side untouched), so every later `Write` fails with the
closed-pipe error leaving the state — buffers included — unchanged, while
`Read` keeps delivering buffered DATA regardless of `closedWrite` until the
peer's FIN is consumed, which sets `closedRead`; from then on every `Read`
returns end-of-stream. -/
theorem half_close (s : ConnState) (oracle oracle2 : List Bool)
    (now now2 now3 : ℕ) (p : List ℕ) :
    ((connCloseWrite oracle now s).2.2.closed = s.closed ∧
     (s.closed = false → (connCloseWrite oracle now s).2.2.closedWrite = true) ∧
     (connCloseWrite oracle now s).2.2.readBuf = s.readBuf ∧
     (connCloseWrite oracle now s).2.2.readRemain = s.readRemain ∧
     (connCloseWrite oracle now s).2.2.closedRead = s.closedRead ∧
     (connCloseWrite oracle now s).2.2.readDeadline = s.readDeadline) ∧
    (∀ t : ConnState, t.closed = true ∨ t.closedWrite = true →
      connWrite oracle2 now2 p t = ((0, some WriteError.closedPipe), [], t)) ∧
    (∀ (t : ConnState) (pl rest2 : List ℕ) (size : ℕ),
      t.closed = false → t.closedRead = false → t.readDeadline = none →
      t.readRemain = 0 → t.readBuf = dataFrameBytes pl ++ rest2 → pl.length < 2 ^ 32 →
      connRead now3 size t =
        (.bytes (pl.take (min pl.length size)),
         { t with readBuf := pl.drop (min pl.length size) ++ rest2,
                  readRemain := pl.length - min pl.length size,
                  peerLastSeen := now3 })) ∧
    (∀ (t : ConnState) (rest2 : List ℕ) (size : ℕ),
      t.closed = false → t.closedRead = false → t.readDeadline = none →
      t.readRemain = 0 → t.readBuf = finFrameBytes ++ rest2 →
      connRead now3 size t =
        (.eof, { t with readBuf := rest2, closedRead := true,
                        peerLastSeen := now3 })) ∧
    (∀ (t : ConnState) (size : ℕ), t.closed = false → t.closedRead = true →
      connRead now3 size t = (.eof, t)) ∧
    (∀ (t : ConnState) (size : ℕ),
      (connRead now3 size t).2.closedWrite = t.closedWrite ∧
      (connRead now3 size t).2.closed = t.closed ∧
      (connRead now3 size t).2.writeBuf = t.writeBuf) := by
  refine ⟨?_, ?_, ?_, ?_, ?_, fun t size => connRead_preserves_write_side now3 size t⟩
  · by_cases hg : (s.closed || s.closedWrite) = true
    · rw [connCloseWrite, if_pos hg]
      refine ⟨rfl, ?_, rfl, rfl, rfl, rfl⟩
      intro hc
      rw [hc] at hg
      simpa using hg
    · rw [connCloseWrite, if_neg hg]
      obtain ⟨wb, nh, la, hstate⟩ := connFlush_state oracle now
        { s with closedWrite := true, writeBuf := BuildFrame s.writeBuf ⟨[], MsgTypeFin⟩ }
      simp only
      rw [hstate]
      exact ⟨rfl, fun _ => rfl, rfl, rfl, rfl, rfl⟩
  · intro t ht
    rw [connWrite, if_pos (by rcases ht with h | h <;> simp [h])]
  · intro t pl rest2 size hc hr hd hrem hbuf hpl
    exact connRead_data now3 size t pl rest2 hc hr hd hrem hbuf hpl
  · intro t rest2 size hc hr hd hrem hbuf
    exact connRead_fin now3 size t rest2 hc hr hd hrem hbuf
  · intro t size hc hr
    exact connRead_eof_closedRead now3 size t hc hr

/-- Closed witness for `half_close`: on a fresh connection, `CloseWrite`
marks the write side closed; a `Write` against a write-closed connection
fails with the closed-pipe error without touching the state; a `Read` after
the FIN has been consumed returns end-of-stream. -/
theorem half_close_witness :
    (connCloseWrite [true] 0 (freshConn (Noise.mk 0 0 true true) 26)).2.2.closedWrite = true ∧
    connWrite [] 1 [9] { freshConn (Noise.mk 0 0 true true) 26 with closedWrite := true } =
      ((0, some WriteError.closedPipe), [],
       { freshConn (Noise.mk 0 0 true true) 26 with closedWrite := true }) ∧
    connRead 2 4 { freshConn (Noise.mk 0 0 true true) 26 with closedRead := true } =
      (.eof, { freshConn (Noise.mk 0 0 true true) 26 with closedRead := true }) := by
  have h := half_close (freshConn (Noise.mk 0 0 true true) 26) [true] [] 0 1 2 [9]
  exact ⟨h.1.2.1 rfl,
         h.2.1 { freshConn (Noise.mk 0 0 true true) 26 with closedWrite := true } (Or.inr rfl),
         h.2.2.2.2.1 { freshConn (Noise.mk 0 0 true true) 26 with closedRead := true } 4 rfl rfl⟩

/-! ### Flush failure semantics (C7) -/

/-- C7 (amended): when a raw transport write fails during `flush`, the flush
returns that error and the final write buffer is exactly the not-yet-drained
suffix of the original buffer (the bytes still buffered stay buffered, in
order); the `Write` call whose flush failed then returns `(0, err)` — the
accepted byte count is returned only on success — and leaves the state as
the failed flush left it. -/
theorem flush_failure_semantics :
    (∀ (oracle : List Bool) (now : ℕ) (s : ConnState),
      (connFlush oracle now s).1 = FlushOutcome.writeRawFailed →
      ∃ d, d ≤ s.writeBuf.length ∧
        (connFlush oracle now s).2.2.writeBuf = s.writeBuf.drop d) ∧
    (∀ (oracle : List Bool) (now : ℕ) (p : List ℕ) (s : ConnState),
      s.closed = false → s.closedWrite = false → s.writeDeadline = none →
      (connFlush oracle now
        { s with writeBuf := writeLoop (connMTU s.maxRawSize) s.writeBuf p }).1 =
          FlushOutcome.writeRawFailed →
      (connWrite oracle now p s).1 = (0, some WriteError.writeRawFailed) ∧
      (connWrite oracle now p s).2.2 = (connFlush oracle now
        { s with writeBuf := writeLoop (connMTU s.maxRawSize) s.writeBuf p }).2.2) := by
  constructor
  · intro oracle now s
    generalize hk : s.writeBuf.length = k
    induction k using Nat.strong_induction_on generalizing s oracle with
    | _ k ih =>
      intro hfail
      by_cases h0 : s.writeBuf.length = 0
      · rw [connFlush, dif_pos h0] at hfail
        simp at hfail
      · by_cases hm : s.maxRawSize - NoiseOverhead = 0
        · rw [connFlush, dif_neg h0, dif_pos hm] at hfail
          simp at hfail
        · rw [connFlush, dif_neg h0, dif_neg hm] at hfail ⊢
          cases oracle with
          | nil =>
            exact ⟨min s.writeBuf.length (s.maxRawSize - NoiseOverhead),
              by rw [← hk]; exact Nat.min_le_left _ _, rfl⟩
          | cons o rest =>
            cases o with
            | false =>
              exact ⟨min s.writeBuf.length (s.maxRawSize - NoiseOverhead),
                by rw [← hk]; exact Nat.min_le_left _ _, rfl⟩
            | true =>
              simp only at hfail ⊢
              have hlt : (s.writeBuf.drop (min s.writeBuf.length (s.maxRawSize - NoiseOverhead))).length < k := by
                simp
                omega
              obtain ⟨d, hd, hsuf⟩ := ih _ hlt rest
                { s with writeBuf := s.writeBuf.drop (min s.writeBuf.length (s.maxRawSize - NoiseOverhead)),
                         noise := (s.noise.SealData (s.writeBuf.take (min s.writeBuf.length (s.maxRawSize - NoiseOverhead)))).2,
                         lastActive := now }
                rfl hfail
              refine ⟨d + min s.writeBuf.length (s.maxRawSize - NoiseOverhead), ?_, ?_⟩
              · simp at hd
                omega
              · rw [hsuf]
                simp [List.drop_drop, Nat.add_comm]
  · intro oracle now p s hc hw hd hfail
    rw [connWrite, if_neg (by simp [hc, hw]), if_neg (by simp [hd, deadlineExpired])]
    simp only
    rw [hfail]
    exact ⟨rfl, rfl⟩

/-- Counterexample to C7 as stated: on a fresh connection with
`MaxRawSize = 26`, `Write([9])` triggers a flush whose only raw write fails;
the flush reports the failure, yet the `Write` call returns `(0, err)` — not
the accepted byte count 1 that the claim says it has already returned. -/
theorem flush_failure_cex :
    (connFlush [false] 0 { freshConn (Noise.mk 0 0 true true) 26 with
        writeBuf := writeLoop (connMTU 26) [] [9] }).1 = FlushOutcome.writeRawFailed ∧
    (connWrite [false] 0 [9] (freshConn (Noise.mk 0 0 true true) 26)).1 =
      (0, some WriteError.writeRawFailed) ∧
    (connWrite [false] 0 [9] (freshConn (Noise.mk 0 0 true true) 26)).1.1 ≠
      ([9] : List ℕ).length := by
  have hwl : writeLoop (connMTU 26) [] [9] = dataFrameBytes [9] := by
    rw [writeLoop, dif_neg (by decide), dif_neg (by decide)]
    simp only
    rw [writeLoop, dif_pos (by decide)]
    decide
  have hfl : (connFlush [false] 0 { freshConn (Noise.mk 0 0 true true) 26 with
      writeBuf := writeLoop (connMTU 26) [] [9] }).1 = FlushOutcome.writeRawFailed := by
    rw [hwl, connFlush]
    decide
  have hc2 : (connWrite [false] 0 [9] (freshConn (Noise.mk 0 0 true true) 26)).1 =
      (0, some WriteError.writeRawFailed) := by
    rw [connWrite, if_neg (by decide), if_neg (by decide)]
    simp only [freshConn]
    rw [hwl, connFlush]
    decide
  exact ⟨hfl, hc2, by rw [hc2]; decide⟩

/-- Closed witness for `flush_failure_semantics`: the failed flush of a
single buffered DATA frame leaves a suffix of the buffer buffered. -/
theorem flush_failure_semantics_witness :
    ∃ d, d ≤ ({ freshConn (Noise.mk 0 0 true true) 26 with
        writeBuf := dataFrameBytes [9] } : ConnState).writeBuf.length ∧
      (connFlush [false] 0 { freshConn (Noise.mk 0 0 true true) 26 with
        writeBuf := dataFrameBytes [9] }).2.2.writeBuf =
      ({ freshConn (Noise.mk 0 0 true true) 26 with
        writeBuf := dataFrameBytes [9] } : ConnState).writeBuf.drop d := by
  apply flush_failure_semantics.1
  rw [connFlush]
  decide

/-! ### Ordered reliable delivery (C1) -/

theorem allPayloadChunks_flatten (mtu : ℕ) (hm : mtu ≠ 0) (zs : List (List ℕ)) :
    (allPayloadChunks mtu zs).flatten = zs.flatten := by
  induction zs with
  | nil => rfl
  | cons z rest ih =>
    rw [allPayloadChunks] at ih ⊢
    simp only [List.map_cons, List.flatten_cons, List.flatten_append]
    rw [chunksOf_flatten mtu hm z, ih]

theorem allPayloadChunks_le (mtu : ℕ) (zs : List (List ℕ)) :
    ∀ pl ∈ allPayloadChunks mtu zs, pl.length ≤ mtu := by
  intro pl hpl
  rw [allPayloadChunks] at hpl
  obtain ⟨l, hl, hpl2⟩ := List.mem_flatten.mp hpl
  obtain ⟨z, _, hz⟩ := List.mem_map.mp hl
  rw [← hz] at hpl2
  exact chunksOf_length_le mtu z pl hpl2

/-- C1: Ordered reliable delivery.  A sequence of `Write` calls
`x₁, …, xₖ` (and possibly further writes `ys`) on one side of an established
connection produces, through frame building and flush sealing, a chunk
sequence; assuming the driver's order-preservation and prefix invariants,
the peer ingests the concatenated chunk bytes through the decrypt loop and
its successive `Read` calls (enough of them, with positive buffer sizes)
return slices whose concatenation starts with `x₁ ⋯ xₖ`. -/
theorem ordered_reliable_delivery
    (maxRaw now nowR : ℕ) (xs ys : List (List ℕ)) (nhS b : Noise) (sizes : List ℕ)
    (h26 : 26 ≤ maxRaw) (h32 : maxRaw < 2 ^ 32)
    (_hroles : b.isInitiator = !nhS.isInitiator)
    (hnonce : b.recvNonce = nhS.sendNonce)
    (hsz : ∀ z ∈ sizes, 1 ≤ z)
    (hn : (framesBytes (allPayloadChunks (connMTU maxRaw) (xs ++ ys))).length ≤ sizes.length) :
    ∃ tail,
      (readCalls nowR sizes
        { freshConn b maxRaw with
          readBuf := (unsealLoop
            ((writeAll now (xs ++ ys) (freshConn nhS maxRaw)).1.length + 1) b
            (writeAll now (xs ++ ys) (freshConn nhS maxRaw)).1.flatten).1 }).1.flatten =
      xs.flatten ++ tail := by
  have h20 : NoiseOverhead = 20 := rfl
  have h5 : FrameHeaderSize = 5 := rfl
  have hmtu : connMTU maxRaw = maxRaw - NoiseOverhead - FrameHeaderSize := rfl
  have hm20 : NoiseOverhead < (freshConn nhS maxRaw).maxRawSize := by
    show NoiseOverhead < maxRaw
    omega
  obtain ⟨hsf, la, hstate⟩ := writeAll_chunks now (xs ++ ys) (freshConn nhS maxRaw)
    rfl rfl rfl rfl hm20 h32
  have hud := unsealLoop_sealedFrom _ _ _ _ hsf b
    ((writeAll now (xs ++ ys) (freshConn nhS maxRaw)).1.length + 1) hnonce (by omega)
  have hplain : (unsealLoop
      ((writeAll now (xs ++ ys) (freshConn nhS maxRaw)).1.length + 1) b
      (writeAll now (xs ++ ys) (freshConn nhS maxRaw)).1.flatten).1 =
      framesBytes (allPayloadChunks (connMTU maxRaw) (xs ++ ys)) := by
    rw [hud]
    rfl
  have hdrain := readCalls_drain nowR sizes
    { freshConn b maxRaw with
      readBuf := (unsealLoop
        ((writeAll now (xs ++ ys) (freshConn nhS maxRaw)).1.length + 1) b
        (writeAll now (xs ++ ys) (freshConn nhS maxRaw)).1.flatten).1 }
    [] (allPayloadChunks (connMTU maxRaw) (xs ++ ys))
    (by
      show (unsealLoop _ b _).1 = [] ++ framesBytes (allPayloadChunks (connMTU maxRaw) (xs ++ ys))
      rw [hplain]
      simp)
    rfl
    (by
      intro pl hpl
      have := allPayloadChunks_le (connMTU maxRaw) (xs ++ ys) pl hpl
      omega)
    hsz
    (by
      show (unsealLoop _ b _).1.length ≤ sizes.length
      rw [hplain]
      exact hn)
    rfl rfl rfl
  refine ⟨ys.flatten, ?_⟩
  rw [hdrain]
  rw [allPayloadChunks_flatten (connMTU maxRaw) (by omega) (xs ++ ys)]
  simp

/-- Closed witness for `ordered_reliable_delivery`: one write of `[7]`
through a 26-byte raw transport, read back with six one-byte reads. -/
theorem ordered_reliable_delivery_witness :
    ∃ tail,
      (readCalls 0 [1, 1, 1, 1, 1, 1]
        { freshConn (Noise.mk 0 0 true false) 26 with
          readBuf := (unsealLoop
            ((writeAll 0 ([[7]] ++ []) (freshConn (Noise.mk 0 0 true true) 26)).1.length + 1)
            (Noise.mk 0 0 true false)
            (writeAll 0 ([[7]] ++ []) (freshConn (Noise.mk 0 0 true true) 26)).1.flatten).1 }).1.flatten =
      ([[7]] : List (List ℕ)).flatten ++ tail := by
  have hch : chunksOf (connMTU 26) [7] = [[7]] := by
    rw [chunksOf, dif_neg (by decide), dif_neg (by decide), chunksOf, dif_pos (by decide)]
    decide
  exact ordered_reliable_delivery 26 0 0 [[7]] [] (Noise.mk 0 0 true true)
    (Noise.mk 0 0 true false) [1, 1, 1, 1, 1, 1]
    (by decide) (by decide) (by decide) (by decide) (by decide)
    (by simp [allPayloadChunks, hch, framesBytes])

end Aznet
